import Mathlib

/-!
Verification of the mounch launcher (src/mounch.py).

The program's core is `sort_from_cache`: it parses the persisted frequency
cache, drops malformed lines and ids absent from the config, sorts the
retained ids by ascending frequency with Python's stable `sorted`, reverses
the result, and merges it with the original config via the Python dict merge,
so that the most frequent entries come first and the rest keep their config
order.  `main` then records the selection (initialising an unseen id's count
to 0, incrementing an existing count by 1), serialises the cache, and execs
the chosen binary.

Python dicts are modelled as insertion-ordered association lists
`List (String × α)`; Python string operations are modelled by structural
recursion over `List Char` so that every definition evaluates inside the
kernel.
-/

namespace Mounch

/-! ### Python string operations -/

def pyStripList (cs : List Char) : List Char :=
  ((cs.dropWhile Char.isWhitespace).reverse.dropWhile Char.isWhitespace).reverse

/-- Model of Python `str.strip()`: drop leading and trailing whitespace. -/
def pyStrip (s : String) : String := ⟨pyStripList s.data⟩

def wordsAux : List Char → List Char → List String
  | [], cur => if cur.isEmpty then [] else [⟨cur.reverse⟩]
  | c :: cs, cur =>
    if c.isWhitespace then
      if cur.isEmpty then wordsAux cs [] else ⟨cur.reverse⟩ :: wordsAux cs []
    else wordsAux cs (c :: cur)

/-- Model of Python `str.split()` with no separator: split on runs of
whitespace, dropping empty pieces. -/
def pySplit (s : String) : List String := wordsAux s.data []

def splitNlAux : List Char → List Char → List String
  | [], cur => [⟨cur.reverse⟩]
  | c :: cs, cur =>
    if c = '\n' then ⟨cur.reverse⟩ :: splitNlAux cs []
    else splitNlAux cs (c :: cur)

/-- Model of Python `content.split('\n')`: split at every newline, keeping
empty pieces (so the empty string yields one empty line). -/
def splitLines (s : String) : List String := splitNlAux s.data []

/-- Model of Python `sep.join(parts)`. -/
def pyJoin (sep : String) : List String → String
  | [] => ""
  | [x] => x
  | x :: xs => x ++ sep ++ pyJoin sep xs

def digitChar (n : Nat) : Char := Char.ofNat (48 + n % 10)

def natDigits : Nat → Nat → List Char
  | 0, _ => []
  | fuel + 1, n =>
    if n < 10 then [digitChar n]
    else natDigits fuel (n / 10) ++ [digitChar (n % 10)]

/-- Model of Python `str` on a natural number: decimal digits, most
significant first. -/
def natToStr (n : Nat) : String := ⟨natDigits (n + 1) n⟩

/-- Model of Python `str` on an integer (used by the f-string writing a
cache line). -/
def intToStr : Int → String
  | Int.ofNat n => natToStr n
  | Int.negSucc n => ⟨'-' :: natDigits (n + 2) (n + 1)⟩

def digitVal? (c : Char) : Option Nat :=
  if 48 ≤ c.toNat ∧ c.toNat ≤ 57 then some (c.toNat - 48) else none

def parseDigitsAux : List Char → Nat → Option Nat
  | [], acc => some acc
  | c :: cs, acc =>
    match digitVal? c with
    | some d => parseDigitsAux cs (acc * 10 + d)
    | none => none

def parseNat? : List Char → Option Nat
  | [] => none
  | c :: cs => parseDigitsAux (c :: cs) 0

/-- Model of Python `int(token)` on a whitespace-free token: an optional sign
followed by a nonempty run of decimal digits; anything else fails. -/
def int? (s : String) : Option Int :=
  match s.data with
  | [] => none
  | c :: rest =>
    if c = '-' then (parseNat? rest).map (fun n => -(n : Int))
    else if c = '+' then (parseNat? rest).map (fun n => (n : Int))
    else (parseNat? (c :: rest)).map (fun n => (n : Int))

/-! ### Python dicts as insertion-ordered association lists -/

def keys (l : List (String × α)) : List String := l.map Prod.fst

def lookup? : List (String × α) → String → Option α
  | [], _ => none
  | p :: ps, k => if p.1 = k then some p.2 else lookup? ps k

/-- Model of the Python dict assignment `d[k] = v`: update the value in place
if the key is present, otherwise append the new binding. -/
def dictInsert (d : List (String × α)) (k : String) (v : α) : List (String × α) :=
  if k ∈ keys d then d.map (fun p => if p.1 = k then (p.1, v) else p)
  else d ++ [(k, v)]

/-- Build a Python dict from a list of key-value pairs (models `dict(pairs)`
and dict displays with repeated keys: first occurrence fixes the position,
last occurrence fixes the value). -/
def dictOfList (l : List (String × α)) : List (String × α) :=
  l.foldl (fun d p => dictInsert d p.1 p.2) []

/-- Model of the Python dict merge of two dicts via a double-splat display. -/
def dictMerge (a b : List (String × α)) : List (String × α) :=
  dictOfList (a ++ b)

/-! ### sort_from_cache (src/mounch.py lines 90-123) -/

/-- One iteration of the cache-parsing loop in `sort_from_cache`
(lines 104-112): strip and whitespace-split the line; unless it has exactly
two tokens, the id is a key of the config, and the second token parses as an
integer, the line is skipped (the `try`/`except` swallows the failure). -/
def cacheStep (config : List (String × α)) (acc : List (String × Int))
    (line : String) : List (String × Int) :=
  match pySplit (pyStrip line) with
  | [id_, freqStr] =>
    if id_ ∈ keys config then
      match int? freqStr with
      | some n => dictInsert acc id_ n
      | none => acc
    else acc
  | _ => acc

def parseCacheList (config : List (String × α)) (lines : List String) :
    List (String × Int) :=
  lines.foldl (cacheStep config) []

/-- The `cached_entries` dict built by `sort_from_cache` from the raw cache
file content. -/
def parseCache (config : List (String × α)) (content : String) :
    List (String × Int) :=
  parseCacheList config (splitLines content)

/-- The comparison used by `sorted(cached_entries.items(), key=lambda item: item[1])`. -/
def freqLe (p q : String × Int) : Prop := p.2 ≤ q.2

instance : DecidableRel freqLe := fun p q => inferInstanceAs (Decidable (p.2 ≤ q.2))

instance : IsTotal (String × Int) freqLe := ⟨fun p q => Int.le_total p.2 q.2⟩

instance : IsTrans (String × Int) freqLe := ⟨fun _ _ _ h1 h2 => le_trans h1 h2⟩

/-- The id list `dict(reversed(sorted(cached_entries.items(), key=lambda
item: item[1]))).keys()`, filtered by Python truthiness of `el.strip()`.
Python `sorted` is a stable ascending sort, modelled by `List.insertionSort`. -/
def sortIds (cached : List (String × Int)) : List String :=
  (keys (dictOfList (cached.insertionSort freqLe).reverse)).filter
    (fun el => decide (pyStrip el ≠ ""))

/-- The pair list `[(el, application_config[el]) for el in ...]`: the lookup
cannot fail because every cached id was checked against the config. -/
def sortPairs (config : List (String × α)) (cached : List (String × Int)) :
    List (String × α) :=
  (sortIds cached).filterMap (fun el => (lookup? config el).map (fun v => (el, v)))

/-- Model of `sort_from_cache` (lines 90-123), with the cache file content
passed as a string: returns the reordered config and the retained frequency
dict. -/
def sort_from_cache (config : List (String × α)) (content : String) :
    List (String × α) × List (String × Int) :=
  let cached := parseCache config content
  (dictMerge (dictOfList (sortPairs config cached)) config, cached)

/-! ### main after the menu returns (src/mounch.py lines 152-189) -/

/-- Model of the frequency update in `main` (lines 166-169): a previously
unseen id is recorded with count 0, an existing count is incremented by 1. -/
def record_selection (cached : List (String × Int)) (chosen : String) :
    List (String × Int) :=
  if chosen ∉ keys cached then dictInsert cached chosen 0
  else cached.map (fun p => if p.1 = chosen then (p.1, p.2 + 1) else p)

/-- Model of the cache write in `main` (lines 170-171): newline-joined
`"<id> <count>"` records in dict iteration order. -/
def serializeCache (cached : List (String × Int)) : String :=
  pyJoin ("\n") (cached.map (fun p => p.1 ++ " " ++ intToStr p.2))

/-- An entry definition from the YAML config: `description` and `binary` are
required; `args` is absent, a single string, or a list of strings; `icon` is
optional. -/
structure EntryDef where
  description : String
  binary : String
  args : Option (String ⊕ List String) := none
  icon : Option String := none
deriving DecidableEq

/-- The observable outcome of `main` after the menu subprocess returns. -/
inductive RunOutcome where
  /-- Empty menu output: `main` returns normally (exit status 0), without
  writing the cache or mutating any count. -/
  | cancelled : RunOutcome
  /-- An uncaught exception (IndexError on an empty candidate list), before
  any cache write. -/
  | crashed : RunOutcome
  /-- `shutil.which` failed: message and exit status 1; the field is the
  cache content that was already written. -/
  | binaryNotFound : String → RunOutcome
  /-- `os.execv`: the fields are the written cache content and the argument
  vector the process is replaced with. -/
  | launched : String → List String → RunOutcome
deriving DecidableEq

/-- The cache content written by an outcome, if any: only the
`binaryNotFound` and `launched` paths reach the cache write. -/
def cacheWriteOf : RunOutcome → Option String
  | RunOutcome.cancelled => none
  | RunOutcome.crashed => none
  | RunOutcome.binaryNotFound w => some w
  | RunOutcome.launched w _ => some w

/-- The candidate list `[x for x in application_config if
application_config[x]['description'] == output]` (lines 157-160). -/
def selectId (config : List (String × EntryDef)) (output : String) :
    List String :=
  (keys config).filter (fun x =>
    match lookup? config x with
    | some d => decide (d.description = output)
    | none => false)

/-- The argument vector handed to `os.execv` (lines 179-189). -/
def buildArgv (binary : String) (args : Option (String ⊕ List String)) :
    List String :=
  match args with
  | none => [binary]
  | some (Sum.inl s) => [binary, s]
  | some (Sum.inr l) => binary :: l

/-- Continuation of `main` once an id has been selected: record the
selection, write the cache, resolve the binary, exec. -/
def proceedWith (which : String → Option String)
    (config : List (String × EntryDef)) (cached : List (String × Int))
    (chosen_id : String) : RunOutcome :=
  match lookup? config chosen_id with
  | none => RunOutcome.crashed
  | some chosen =>
    let written := serializeCache (record_selection cached chosen_id)
    match which chosen.binary with
    | none => RunOutcome.binaryNotFound written
    | some binary => RunOutcome.launched written (buildArgv binary chosen.args)

/-- Model of `main` after the menu subprocess returns (lines 152-189):
`which` abstracts `shutil.which`, `config` is the (reordered) entry mapping,
`cached` the retained frequency dict, `stdoutStr` the decoded menu output. -/
def afterMenu (which : String → Option String)
    (config : List (String × EntryDef)) (cached : List (String × Int))
    (stdoutStr : String) : RunOutcome :=
  let output := pyStrip stdoutStr
  if output = "" then RunOutcome.cancelled
  else
    match selectId config output with
    | [] => RunOutcome.crashed
    | chosen_id :: _ => proceedWith which config cached chosen_id

/-! ### Lemmas: lookup and keys -/

/-! ### Lemmas: lookup and keys -/

theorem keys_append (a b : List (String × α)) :
    keys (a ++ b) = keys a ++ keys b :=
  List.map_append _ _ _

theorem keys_cons (p : String × α) (l : List (String × α)) :
    keys (p :: l) = p.1 :: keys l := rfl

theorem lookup?_eq_none {l : List (String × α)} {k : String} :
    lookup? l k = none ↔ k ∉ keys l := by
  induction l with
  | nil => simp [lookup?, keys]
  | cons p ps ih =>
    rw [keys_cons]
    by_cases h : p.1 = k
    · simp [lookup?, h]
    · simp only [lookup?, if_neg h, List.mem_cons, not_or, ih]
      constructor
      · intro hk
        exact ⟨fun he => h he.symm, hk⟩
      · intro hk
        exact hk.2

theorem lookup?_append_left {a b : List (String × α)} {k : String} {v : α}
    (h : lookup? a k = some v) : lookup? (a ++ b) k = some v := by
  induction a with
  | nil => simp [lookup?] at h
  | cons p ps ih =>
    rw [List.cons_append]
    simp only [lookup?] at h ⊢
    by_cases hp : p.1 = k
    · rw [if_pos hp] at h ⊢
      exact h
    · rw [if_neg hp] at h ⊢
      exact ih h

theorem lookup?_append_right {a b : List (String × α)} {k : String}
    (h : k ∉ keys a) : lookup? (a ++ b) k = lookup? b k := by
  induction a with
  | nil => simp
  | cons p ps ih =>
    rw [keys_cons] at h
    simp only [List.mem_cons, not_or] at h
    rw [List.cons_append]
    simp only [lookup?]
    rw [if_neg (fun he => h.1 he.symm)]
    exact ih h.2

theorem mem_of_lookup? {l : List (String × α)} {k : String} {v : α}
    (h : lookup? l k = some v) : (k, v) ∈ l := by
  induction l with
  | nil => simp [lookup?] at h
  | cons p ps ih =>
    simp only [lookup?] at h
    by_cases hp : p.1 = k
    · rw [if_pos hp] at h
      obtain ⟨a, b⟩ := p
      obtain rfl : a = k := hp
      obtain rfl : b = v := Option.some.inj h
      exact List.mem_cons_self _ _
    · rw [if_neg hp] at h
      exact List.mem_cons_of_mem _ (ih h)

theorem lookup?_mem_keys {l : List (String × α)} {k : String} {v : α}
    (h : lookup? l k = some v) : k ∈ keys l :=
  List.mem_map_of_mem Prod.fst (mem_of_lookup? h)

theorem lookup?_of_mem_nodup {l : List (String × α)}
    (hnd : (keys l).Nodup) {p : String × α} (hp : p ∈ l) :
    lookup? l p.1 = some p.2 := by
  induction l with
  | nil => simp at hp
  | cons q qs ih =>
    rw [keys_cons, List.nodup_cons] at hnd
    rcases List.mem_cons.mp hp with rfl | hmem
    · simp [lookup?]
    · have hq : q.1 ≠ p.1 := by
        intro he
        exact hnd.1 (he ▸ List.mem_map_of_mem Prod.fst hmem)
      simp only [lookup?]
      rw [if_neg hq]
      exact ih hnd.2 hmem

theorem lookup?_filter {l : List (String × α)} {P : String × α → Bool}
    {k : String} (h : ∀ p ∈ l, P p = false → p.1 ≠ k) :
    lookup? (l.filter P) k = lookup? l k := by
  induction l with
  | nil => simp
  | cons p ps ih =>
    have ihh := ih (fun q hq => h q (List.mem_cons_of_mem _ hq))
    rw [List.filter_cons]
    by_cases hP : P p
    · rw [if_pos hP]
      simp only [lookup?]
      by_cases hp : p.1 = k
      · rw [if_pos hp, if_pos hp]
      · rw [if_neg hp, if_neg hp]
        exact ihh
    · have hk : p.1 ≠ k := h p (List.mem_cons_self _ _) (by simpa using hP)
      rw [if_neg hP]
      simp only [lookup?]
      rw [if_neg hk]
      exact ihh

/-! ### Lemmas: dict operations -/

theorem keys_dictInsert_of_mem {d : List (String × α)} {k : String} {v : α}
    (h : k ∈ keys d) : keys (dictInsert d k v) = keys d := by
  unfold dictInsert
  rw [if_pos h]
  unfold keys
  rw [List.map_map]
  apply List.map_congr_left
  intro p _
  by_cases hp : p.1 = k <;> simp [Function.comp, hp]

theorem keys_dictInsert_of_not_mem {d : List (String × α)} {k : String}
    {v : α} (h : k ∉ keys d) : keys (dictInsert d k v) = keys d ++ [k] := by
  unfold dictInsert
  rw [if_neg h]
  unfold keys
  simp

theorem mem_keys_dictInsert {d : List (String × α)} {k x : String} {v : α} :
    x ∈ keys (dictInsert d k v) ↔ x ∈ keys d ∨ x = k := by
  by_cases h : k ∈ keys d
  · rw [keys_dictInsert_of_mem h]
    constructor
    · exact Or.inl
    · rintro (hx | rfl)
      · exact hx
      · exact h
  · rw [keys_dictInsert_of_not_mem h]
    simp

theorem nodup_keys_dictInsert {d : List (String × α)} {k : String} {v : α}
    (h : (keys d).Nodup) : (keys (dictInsert d k v)).Nodup := by
  by_cases hk : k ∈ keys d
  · rwa [keys_dictInsert_of_mem hk]
  · rw [keys_dictInsert_of_not_mem hk]
    simpa [List.nodup_append] using ⟨h, hk⟩

theorem foldl_dictInsert_disjoint :
    ∀ (l acc : List (String × α)), (keys l).Nodup →
      (∀ k ∈ keys l, k ∉ keys acc) →
      l.foldl (fun d p => dictInsert d p.1 p.2) acc = acc ++ l := by
  intro l
  induction l with
  | nil => intro acc _ _; simp
  | cons p ps ih =>
    intro acc hnd hdisj
    rw [keys_cons, List.nodup_cons] at hnd
    have hp : p.1 ∉ keys acc := hdisj p.1 (by rw [keys_cons]; exact List.mem_cons_self _ _)
    have step : dictInsert acc p.1 p.2 = acc ++ [p] := by
      unfold dictInsert
      rw [if_neg hp]
    rw [List.foldl_cons, step, ih (acc ++ [p]) hnd.2 ?disj]
    · simp
    case disj =>
      intro k hk
      rw [keys_append]
      simp only [List.mem_append, not_or]
      constructor
      · exact hdisj k (by rw [keys_cons]; exact List.mem_cons_of_mem _ hk)
      · simp only [keys, List.map_cons, List.map_nil, List.mem_singleton]
        intro he
        exact hnd.1 (he ▸ hk)

theorem dictOfList_eq_self {l : List (String × α)} (h : (keys l).Nodup) :
    dictOfList l = l := by
  have := foldl_dictInsert_disjoint l [] h (by intro k _; simp [keys])
  simpa [dictOfList] using this

theorem keys_dictOfList_subset {l : List (String × α)} :
    ∀ x, x ∈ keys (dictOfList l) → x ∈ keys l := by
  suffices h : ∀ (l acc : List (String × α)) (x : String),
      x ∈ keys (l.foldl (fun d p => dictInsert d p.1 p.2) acc) →
      x ∈ keys acc ∨ x ∈ keys l by
    intro x hx
    rcases h l [] x hx with h0 | h1
    · simp [keys] at h0
    · exact h1
  intro l
  induction l with
  | nil => intro acc x hx; exact Or.inl hx
  | cons p ps ih =>
    intro acc x hx
    rw [List.foldl_cons] at hx
    rcases ih _ x hx with hacc | hps
    · rcases mem_keys_dictInsert.mp hacc with h0 | rfl
      · exact Or.inl h0
      · exact Or.inr (by rw [keys_cons]; exact List.mem_cons_self _ _)
    · exact Or.inr (by rw [keys_cons]; exact List.mem_cons_of_mem _ hps)

theorem foldl_dictInsert_agree :
    ∀ (l acc : List (String × α)), (keys acc).Nodup → (keys l).Nodup →
      (∀ p ∈ l, ∀ q ∈ acc, q.1 = p.1 → q.2 = p.2) →
      l.foldl (fun d p => dictInsert d p.1 p.2) acc
        = acc ++ l.filter (fun p => decide (p.1 ∉ keys acc)) := by
  intro l
  induction l with
  | nil => intro acc _ _ _; simp
  | cons p ps ih =>
    intro acc hacc hnd hagree
    rw [keys_cons, List.nodup_cons] at hnd
    have hp_notin_ps : p.1 ∉ keys ps := hnd.1
    by_cases hp : p.1 ∈ keys acc
    · have step : dictInsert acc p.1 p.2 = acc := by
        unfold dictInsert
        rw [if_pos hp]
        conv_rhs => rw [← List.map_id acc]
        apply List.map_congr_left
        intro q hq
        by_cases hq1 : q.1 = p.1
        · have := hagree p (List.mem_cons_self _ _) q hq hq1
          obtain ⟨a, b⟩ := q
          simp only at hq1 this
          simp [hq1, this]
        · simp [hq1]
      rw [List.foldl_cons, step,
        ih acc hacc hnd.2
          (fun r hr q hq he => hagree r (List.mem_cons_of_mem _ hr) q hq he)]
      rw [List.filter_cons]
      simp [hp]
    · have step : dictInsert acc p.1 p.2 = acc ++ [p] := by
        unfold dictInsert
        rw [if_neg hp]
      rw [List.foldl_cons, step,
        ih (acc ++ [p])
          (by
            rw [keys_append]
            exact hacc.append (List.nodup_singleton _)
              (fun x hx hx1 => hp ((List.mem_singleton.mp hx1) ▸ hx)))
          hnd.2
          (by
            intro r hr q hq he
            rcases List.mem_append.mp hq with hq0 | hq1
            · exact hagree r (List.mem_cons_of_mem _ hr) q hq0 he
            · exfalso
              simp only [List.mem_singleton] at hq1
              subst hq1
              exact hp_notin_ps (he ▸ List.mem_map_of_mem Prod.fst hr))]
      have hfilter : ps.filter (fun r => decide (r.1 ∉ keys (acc ++ [p])))
          = ps.filter (fun r => decide (r.1 ∉ keys acc)) := by
        apply List.filter_congr
        intro r hr
        have hne : r.1 ≠ p.1 := fun he =>
          hp_notin_ps (he ▸ List.mem_map_of_mem Prod.fst hr)
        simp [keys_append, keys, hne]
      rw [hfilter, List.filter_cons]
      simp [hp]

theorem dictMerge_eq {a b : List (String × α)} (ha : (keys a).Nodup)
    (hb : (keys b).Nodup)
    (hab : ∀ p ∈ b, ∀ q ∈ a, q.1 = p.1 → q.2 = p.2) :
    dictMerge a b = a ++ b.filter (fun p => decide (p.1 ∉ keys a)) := by
  unfold dictMerge dictOfList
  rw [List.foldl_append,
    foldl_dictInsert_disjoint a [] ha (by intro k _; simp [keys]),
    List.nil_append, foldl_dictInsert_agree b a ha hb hab]
/-! ### Lemmas: tokens produced by pySplit -/

/-- A nonempty whitespace-free token, as produced by `pySplit`. -/
def IsToken (s : String) : Prop :=
  s.data ≠ [] ∧ ∀ c ∈ s.data, c.isWhitespace = false

instance : DecidablePred IsToken := fun s =>
  inferInstanceAs
    (Decidable (s.data ≠ [] ∧ ∀ c ∈ s.data, c.isWhitespace = false))

theorem wordsAux_tokens :
    ∀ (cs cur : List Char), (∀ c ∈ cur, c.isWhitespace = false) →
      ∀ t ∈ wordsAux cs cur, IsToken t := by
  intro cs
  induction cs with
  | nil =>
    intro cur hcur t ht
    simp only [wordsAux] at ht
    by_cases hc : cur.isEmpty
    · rw [if_pos hc] at ht
      simp at ht
    · rw [if_neg hc] at ht
      simp only [List.mem_singleton] at ht
      subst ht
      refine ⟨?_, ?_⟩
      · show cur.reverse ≠ []
        simpa using fun he => hc (by simp [he])
      · intro c hc2
        exact hcur c (by
          have : c ∈ cur.reverse := hc2
          simpa using this)
  | cons c cs ih =>
    intro cur hcur t ht
    simp only [wordsAux] at ht
    by_cases hw : c.isWhitespace
    · rw [if_pos hw] at ht
      by_cases hc : cur.isEmpty
      · rw [if_pos hc] at ht
        exact ih [] (by simp) t ht
      · rw [if_neg hc] at ht
        rcases List.mem_cons.mp ht with rfl | hmem
        · refine ⟨?_, ?_⟩
          · show cur.reverse ≠ []
            simpa using fun he => hc (by simp [he])
          · intro d hd
            exact hcur d (by
              have : d ∈ cur.reverse := hd
              simpa using this)
        · exact ih [] (by simp) t hmem
    · rw [if_neg hw] at ht
      refine ih (c :: cur) ?_ t ht
      intro d hd
      rcases List.mem_cons.mp hd with rfl | hd2
      · simpa using hw
      · exact hcur d hd2

theorem pySplit_tokens (s : String) : ∀ t ∈ pySplit s, IsToken t :=
  wordsAux_tokens s.data [] (by simp)

theorem dropWhile_eq_self {p : Char → Bool} :
    ∀ {cs : List Char}, (∀ c ∈ cs, p c = false) → cs.dropWhile p = cs := by
  intro cs h
  cases cs with
  | nil => rfl
  | cons c cs' =>
    rw [List.dropWhile_cons, h c (List.mem_cons_self _ _)]
    simp

theorem pyStrip_of_token {s : String} (h : IsToken s) : pyStrip s = s := by
  obtain ⟨hne, hws⟩ := h
  unfold pyStrip pyStripList
  rw [dropWhile_eq_self hws,
    dropWhile_eq_self (by
      intro c hc
      exact hws c (by
        have : c ∈ s.data.reverse := hc
        simpa using this)),
    List.reverse_reverse]

theorem pyStrip_token_ne_empty {s : String} (h : IsToken s) : pyStrip s ≠ "" := by
  rw [pyStrip_of_token h]
  intro he
  exact h.1 (by rw [he])

/-! ### Lemmas: invariants and structure of cache parsing -/

/-- Invariants of the `cached_entries` dict: distinct keys, each one a key of
the config and a nonempty whitespace-free token. -/
def CacheInv (config : List (String × α)) (c : List (String × Int)) : Prop :=
  (keys c).Nodup ∧ ∀ k ∈ keys c, k ∈ keys config ∧ IsToken k

theorem cacheStep_inv {config : List (String × α)} {acc : List (String × Int)}
    (h : CacheInv config acc) (line : String) :
    CacheInv config (cacheStep config acc line) := by
  unfold cacheStep
  cases hsp : pySplit (pyStrip line) with
  | nil => exact h
  | cons t1 rest =>
    cases rest with
    | nil => exact h
    | cons t2 rest2 =>
      cases rest2 with
      | nil =>
        dsimp only
        by_cases hm : t1 ∈ keys config
        · rw [if_pos hm]
          cases hint : int? t2 with
          | none => exact h
          | some n =>
            refine ⟨nodup_keys_dictInsert h.1, ?_⟩
            intro k hk
            rcases mem_keys_dictInsert.mp hk with h0 | rfl
            · exact h.2 k h0
            · exact ⟨hm, pySplit_tokens _ _ (by rw [hsp]; exact List.mem_cons_self _ _)⟩
        · rw [if_neg hm]
          exact h
      | cons _ _ => exact h

theorem parseCacheList_inv (config : List (String × α)) (lines : List String) :
    CacheInv config (parseCacheList config lines) := by
  unfold parseCacheList
  suffices h : ∀ (ls : List String) (acc : List (String × Int)),
      CacheInv config acc → CacheInv config (ls.foldl (cacheStep config) acc) by
    exact h lines [] ⟨by simp [keys], by simp [keys]⟩
  intro ls
  induction ls with
  | nil => intro acc h; exact h
  | cons l ls ih =>
    intro acc h
    exact ih _ (cacheStep_inv h l)

theorem parseCache_inv (config : List (String × α)) (content : String) :
    CacheInv config (parseCache config content) :=
  parseCacheList_inv config (splitLines content)

theorem cacheStep_congr {c1 : List (String × α)} {c2 : List (String × β)}
    (hk : ∀ k, k ∈ keys c1 ↔ k ∈ keys c2) (acc : List (String × Int))
    (line : String) : cacheStep c1 acc line = cacheStep c2 acc line := by
  unfold cacheStep
  cases hsp : pySplit (pyStrip line) with
  | nil => rfl
  | cons t1 rest =>
    cases rest with
    | nil => rfl
    | cons t2 rest2 =>
      cases rest2 with
      | nil =>
        dsimp only
        by_cases hm : t1 ∈ keys c1
        · rw [if_pos hm, if_pos ((hk t1).mp hm)]
        · rw [if_neg hm, if_neg (fun hm2 => hm ((hk t1).mpr hm2))]
      | cons _ _ => rfl

theorem parseCacheList_congr {c1 : List (String × α)} {c2 : List (String × β)}
    (hk : ∀ k, k ∈ keys c1 ↔ k ∈ keys c2) (lines : List String) :
    parseCacheList c1 lines = parseCacheList c2 lines := by
  unfold parseCacheList
  suffices h : ∀ (ls : List String) (acc : List (String × Int)),
      ls.foldl (cacheStep c1) acc = ls.foldl (cacheStep c2) acc from h lines []
  intro ls
  induction ls with
  | nil => intro acc; rfl
  | cons l ls ih =>
    intro acc
    rw [List.foldl_cons, List.foldl_cons, cacheStep_congr hk, ih]

/-- A cache line is well formed when its stripped form splits into exactly two
whitespace-separated tokens whose second parses as an integer. -/
def wellFormedLine (line : String) : Bool :=
  match pySplit (pyStrip line) with
  | [_, freqStr] => (int? freqStr).isSome
  | _ => false

theorem cacheStep_of_malformed {config : List (String × α)}
    (acc : List (String × Int)) {line : String}
    (h : wellFormedLine line = false) : cacheStep config acc line = acc := by
  unfold wellFormedLine at h
  unfold cacheStep
  cases hsp : pySplit (pyStrip line) with
  | nil => rfl
  | cons t1 rest =>
    cases rest with
    | nil => rfl
    | cons t2 rest2 =>
      cases rest2 with
      | nil =>
        dsimp only
        rw [hsp] at h
        dsimp only at h
        cases hint : int? t2 with
        | some n =>
          rw [hint] at h
          simp at h
        | none =>
          by_cases hm : t1 ∈ keys config
          · rw [if_pos hm]
          · rw [if_neg hm]
      | cons _ _ => rfl

theorem parseCacheList_skip_malformed (config : List (String × α))
    (pre suf : List String) {line : String}
    (h : wellFormedLine line = false) :
    parseCacheList config (pre ++ line :: suf)
      = parseCacheList config (pre ++ suf) := by
  unfold parseCacheList
  rw [List.foldl_append, List.foldl_append, List.foldl_cons,
    cacheStep_of_malformed _ h]

/-! ### Lemmas: the sorted id list and the reordered mapping -/

theorem sorted_rev_perm (cached : List (String × Int)) :
    (cached.insertionSort freqLe).reverse.Perm cached :=
  (List.reverse_perm _).trans (List.perm_insertionSort freqLe cached)

theorem sortIds_eq {config : List (String × α)} {cached : List (String × Int)}
    (hinv : CacheInv config cached) :
    sortIds cached = keys (cached.insertionSort freqLe).reverse := by
  have hperm : (keys (cached.insertionSort freqLe).reverse).Perm (keys cached) :=
    (sorted_rev_perm cached).map Prod.fst
  have hndrev : (keys (cached.insertionSort freqLe).reverse).Nodup :=
    hperm.nodup_iff.mpr hinv.1
  unfold sortIds
  rw [dictOfList_eq_self hndrev]
  apply List.filter_eq_self.mpr
  intro k hk
  have htok : IsToken k := (hinv.2 k (hperm.mem_iff.mp hk)).2
  simpa using pyStrip_token_ne_empty htok

theorem sortIds_perm {config : List (String × α)} {cached : List (String × Int)}
    (hinv : CacheInv config cached) : (sortIds cached).Perm (keys cached) := by
  rw [sortIds_eq hinv]
  exact (sorted_rev_perm cached).map Prod.fst

theorem sortIds_nodup {config : List (String × α)} {cached : List (String × Int)}
    (hinv : CacheInv config cached) : (sortIds cached).Nodup :=
  ((sortIds_perm hinv).nodup_iff).mpr hinv.1

theorem sortIds_sub_config {config : List (String × α)}
    {cached : List (String × Int)} (hinv : CacheInv config cached) :
    ∀ k ∈ sortIds cached, k ∈ keys config := by
  intro k hk
  exact (hinv.2 k ((sortIds_perm hinv).mem_iff.mp hk)).1

theorem exists_lookup?_of_mem_keys {l : List (String × α)} {k : String}
    (h : k ∈ keys l) : ∃ v, lookup? l k = some v := by
  cases hl : lookup? l k with
  | some v => exact ⟨v, rfl⟩
  | none => exact absurd h (lookup?_eq_none.mp hl)

theorem keys_filterMap_lookup {config : List (String × α)} :
    ∀ (ids : List String), (∀ k ∈ ids, k ∈ keys config) →
      keys (ids.filterMap
        (fun el => (lookup? config el).map (fun v => (el, v)))) = ids := by
  intro ids
  induction ids with
  | nil => intro _; rfl
  | cons i is ih =>
    intro h
    obtain ⟨v, hv⟩ := exists_lookup?_of_mem_keys (h i (List.mem_cons_self _ _))
    rw [List.filterMap_cons, hv]
    show (i, v).1 :: keys (is.filterMap
        (fun el => (lookup? config el).map (fun v => (el, v)))) = i :: is
    rw [ih (fun k hk => h k (List.mem_cons_of_mem _ hk))]

theorem keys_sortPairs {config : List (String × α)}
    {cached : List (String × Int)} (hinv : CacheInv config cached) :
    keys (sortPairs config cached) = sortIds cached :=
  keys_filterMap_lookup (sortIds cached) (sortIds_sub_config hinv)

theorem sortPairs_mem_lookup {config : List (String × α)}
    {cached : List (String × Int)} :
    ∀ p ∈ sortPairs config cached, lookup? config p.1 = some p.2 := by
  intro p hp
  unfold sortPairs at hp
  rcases List.mem_filterMap.mp hp with ⟨el, _, hfe⟩
  cases hl : lookup? config el with
  | none =>
    rw [hl] at hfe
    simp at hfe
  | some v =>
    rw [hl] at hfe
    dsimp only [Option.map] at hfe
    obtain rfl : (el, v) = p := Option.some.inj hfe
    exact hl

theorem keys_filter_fst (l : List (String × α)) (q : String → Bool) :
    keys (l.filter (fun p => q p.1)) = (keys l).filter q := by
  induction l with
  | nil => rfl
  | cons p ps ih =>
    rw [List.filter_cons, keys_cons, List.filter_cons]
    by_cases h : q p.1
    · rw [if_pos h, if_pos h, keys_cons, ih]
    · rw [if_neg h, if_neg h, ih]

/-- Structure of the reordered mapping: the pairs for the sorted cached ids,
then the remaining config entries, filtered in config order. -/
theorem sort_from_cache_fst_eq {config : List (String × α)} (content : String)
    (hnd : (keys config).Nodup) :
    (sort_from_cache config content).1
      = sortPairs config (parseCache config content)
        ++ config.filter
            (fun p => decide (p.1 ∉ sortIds (parseCache config content))) := by
  have hinv := parseCache_inv config content
  have hkeysSP : keys (sortPairs config (parseCache config content))
      = sortIds (parseCache config content) := keys_sortPairs hinv
  have hndSP : (keys (sortPairs config (parseCache config content))).Nodup := by
    rw [hkeysSP]
    exact sortIds_nodup hinv
  have hagree : ∀ p ∈ config,
      ∀ q ∈ sortPairs config (parseCache config content),
        q.1 = p.1 → q.2 = p.2 := by
    intro p hp q hq he
    have h1 : lookup? config q.1 = some q.2 := sortPairs_mem_lookup q hq
    have h2 : lookup? config p.1 = some p.2 := lookup?_of_mem_nodup hnd hp
    rw [he, h2] at h1
    exact (Option.some.inj h1).symm
  show dictMerge (dictOfList (sortPairs config (parseCache config content)))
      config = _
  rw [dictOfList_eq_self hndSP, dictMerge_eq hndSP hnd hagree]
  simp only [hkeysSP]

theorem sort_from_cache_snd_eq (config : List (String × α)) (content : String) :
    (sort_from_cache config content).2 = parseCache config content := rfl

/-- The key list of the reordered mapping is a permutation of the config's
key list. -/
theorem sort_from_cache_keys_perm {config : List (String × α)}
    (content : String) (hnd : (keys config).Nodup) :
    (keys (sort_from_cache config content).1).Perm (keys config) := by
  have hinv := parseCache_inv config content
  rw [sort_from_cache_fst_eq content hnd, keys_append, keys_sortPairs hinv,
    keys_filter_fst config (fun k => decide (k ∉ sortIds (parseCache config content)))]
  have hndfilter :=
    hnd.filter (fun k => decide (k ∈ sortIds (parseCache config content)))
  have hperm2 : (sortIds (parseCache config content)).Perm
      ((keys config).filter
        (fun k => decide (k ∈ sortIds (parseCache config content)))) := by
    rw [List.perm_ext_iff_of_nodup (sortIds_nodup hinv) hndfilter]
    intro a
    constructor
    · intro ha
      exact List.mem_filter.mpr ⟨sortIds_sub_config hinv a ha, by simpa using ha⟩
    · intro ha
      have h2 := (List.mem_filter.mp ha).2
      simpa using h2
  have hfp := List.filter_append_perm
    (fun k => decide (k ∈ sortIds (parseCache config content))) (keys config)
  have hcongr : (keys config).filter
        (fun k => !(decide (k ∈ sortIds (parseCache config content))))
      = (keys config).filter
        (fun k => decide (k ∉ sortIds (parseCache config content))) := by
    apply List.filter_congr
    intro a _
    simp
  rw [hcongr] at hfp
  exact (hperm2.append_right _).trans hfp

/-- Reordering does not change any definition: lookups agree with the
original config. -/
theorem sort_from_cache_lookup {config : List (String × α)} (content : String)
    (hnd : (keys config).Nodup) (k : String) :
    lookup? (sort_from_cache config content).1 k = lookup? config k := by
  have hinv := parseCache_inv config content
  rw [sort_from_cache_fst_eq content hnd]
  by_cases hk : k ∈ sortIds (parseCache config content)
  · have hkSP : k ∈ keys (sortPairs config (parseCache config content)) := by
      rw [keys_sortPairs hinv]
      exact hk
    obtain ⟨v, hv⟩ := exists_lookup?_of_mem_keys hkSP
    rw [lookup?_append_left hv]
    exact (sortPairs_mem_lookup _ (mem_of_lookup? hv)).symm
  · have hkSP : k ∉ keys (sortPairs config (parseCache config content)) := by
      rw [keys_sortPairs hinv]
      exact hk
    rw [lookup?_append_right hkSP]
    apply lookup?_filter
    intro p _ hfalse he
    apply hk
    rw [← he]
    simpa using hfalse

/-- The sorted prefix is ordered by descending cached frequency. -/
theorem sortPairs_pairwise {config : List (String × α)}
    {cached : List (String × Int)} (hinv : CacheInv config cached) :
    (sortPairs config cached).Pairwise
      (fun p q => ∀ fp fq, lookup? cached p.1 = some fp →
        lookup? cached q.1 = some fq → fq ≤ fp) := by
  have hrev : ((cached.insertionSort freqLe).reverse).Pairwise
      (fun p q : String × Int => q.2 ≤ p.2) := by
    rw [List.pairwise_reverse]
    exact List.sorted_insertionSort freqLe cached
  have hmemlookup : ∀ p ∈ (cached.insertionSort freqLe).reverse,
      lookup? cached p.1 = some p.2 := by
    intro p hp
    exact lookup?_of_mem_nodup hinv.1 ((sorted_rev_perm cached).mem_iff.mp hp)
  have hS : ((cached.insertionSort freqLe).reverse).Pairwise
      (fun p q : String × Int => ∀ fp fq, lookup? cached p.1 = some fp →
        lookup? cached q.1 = some fq → fq ≤ fp) := by
    refine List.Pairwise.imp_of_mem ?_ hrev
    intro a b ha hb hab fp fq hfp hfq
    rw [hmemlookup a ha] at hfp
    rw [hmemlookup b hb] at hfq
    obtain rfl := Option.some.inj hfp
    obtain rfl := Option.some.inj hfq
    exact hab
  have hids : (sortIds cached).Pairwise
      (fun a b => ∀ fp fq, lookup? cached a = some fp →
        lookup? cached b = some fq → fq ≤ fp) := by
    rw [sortIds_eq hinv]
    unfold keys
    rw [List.pairwise_map]
    exact hS
  have hfin := hids
  rw [← keys_sortPairs hinv] at hfin
  unfold keys at hfin
  rw [List.pairwise_map] at hfin
  exact hfin

theorem parseCache_congr {c1 : List (String × α)} {c2 : List (String × β)}
    (hk : ∀ k, k ∈ keys c1 ↔ k ∈ keys c2) (content : String) :
    parseCache c1 content = parseCache c2 content :=
  parseCacheList_congr hk (splitLines content)

theorem sortPairs_congr {c1 c2 : List (String × α)}
    {cached : List (String × Int)} (h : ∀ k, lookup? c1 k = lookup? c2 k) :
    sortPairs c1 cached = sortPairs c2 cached := by
  unfold sortPairs
  simp only [h]

/-! ### Claim C1 -/

/-- C1: for every config mapping with distinct keys and every cache content,
`sort_from_cache` returns a mapping whose key list is a permutation of the
config's (no additions, no losses), mapping each key to the same definition
(all lookups agree); the mapping splits into a prefix holding exactly the ids
with a retained cache entry, ordered by descending frequency, followed by the
remaining config entries in their original config order; in particular for
config `{a, b, c}` and cache content `"b 5\nc 2"` the resulting order is
`[b, c, a]`. -/
theorem c1_sort_from_cache_contract :
    (∀ (α : Type) (config : List (String × α)) (content : String),
      (keys config).Nodup →
      (keys (sort_from_cache config content).1).Perm (keys config)
      ∧ (∀ k, lookup? (sort_from_cache config content).1 k = lookup? config k)
      ∧ ∃ l1, (sort_from_cache config content).1
            = l1 ++ config.filter
                (fun p => decide (p.1 ∉ keys (sort_from_cache config content).2))
          ∧ (keys l1).Perm (keys (sort_from_cache config content).2)
          ∧ l1.Pairwise (fun p q => ∀ fp fq,
              lookup? (sort_from_cache config content).2 p.1 = some fp →
              lookup? (sort_from_cache config content).2 q.1 = some fq → fq ≤ fp))
    ∧ keys (sort_from_cache [("a", 1), ("b", 2), ("c", 3)] ("b 5\nc 2")).1
        = ["b", "c", "a"] := by
  constructor
  · intro α config content hnd
    have hinv := parseCache_inv config content
    refine ⟨sort_from_cache_keys_perm content hnd,
      sort_from_cache_lookup content hnd,
      sortPairs config (parseCache config content), ?_, ?_, ?_⟩
    · rw [sort_from_cache_fst_eq content hnd]
      congr 1
      apply List.filter_congr
      intro p _
      rw [sort_from_cache_snd_eq]
      exact decide_eq_decide.mpr (not_congr (sortIds_perm hinv).mem_iff)
    · rw [keys_sortPairs hinv, sort_from_cache_snd_eq]
      exact sortIds_perm hinv
    · rw [sort_from_cache_snd_eq]
      exact sortPairs_pairwise hinv
  · decide

/-- Witness for C1: the general contract applied to the concrete `{a, b, c}`
config with cache content `"b 5\nc 2"`. -/
theorem c1_witness :
    (keys (sort_from_cache ([("a", 1), ("b", 2), ("c", 3)] :
        List (String × Nat)) ("b 5\nc 2")).1).Perm
        (keys ([("a", 1), ("b", 2), ("c", 3)] : List (String × Nat)))
    ∧ (∀ k, lookup? (sort_from_cache ([("a", 1), ("b", 2), ("c", 3)] :
        List (String × Nat)) ("b 5\nc 2")).1 k
        = lookup? ([("a", 1), ("b", 2), ("c", 3)] : List (String × Nat)) k)
    ∧ ∃ l1, (sort_from_cache ([("a", 1), ("b", 2), ("c", 3)] :
            List (String × Nat)) ("b 5\nc 2")).1
          = l1 ++ ([("a", 1), ("b", 2), ("c", 3)] :
              List (String × Nat)).filter
              (fun p => decide (p.1 ∉ keys (sort_from_cache
                ([("a", 1), ("b", 2), ("c", 3)] :
                  List (String × Nat)) ("b 5\nc 2")).2))
        ∧ (keys l1).Perm (keys (sort_from_cache
            ([("a", 1), ("b", 2), ("c", 3)] :
              List (String × Nat)) ("b 5\nc 2")).2)
        ∧ l1.Pairwise (fun p q => ∀ fp fq,
            lookup? (sort_from_cache ([("a", 1), ("b", 2), ("c", 3)] :
              List (String × Nat)) ("b 5\nc 2")).2 p.1 = some fp →
            lookup? (sort_from_cache ([("a", 1), ("b", 2), ("c", 3)] :
              List (String × Nat)) ("b 5\nc 2")).2 q.1 = some fq → fq ≤ fp) :=
  c1_sort_from_cache_contract.1 Nat [("a", 1), ("b", 2), ("c", 3)]
    ("b 5\nc 2") (by decide)

/-! ### Claim C3 -/

/-- C3: reordering is idempotent: applying `sort_from_cache` to the
already-reordered mapping with the same cache content yields the very same
reordered mapping and the same retained frequency mapping. -/
theorem c3_sort_from_cache_idempotent (α : Type)
    (config : List (String × α)) (content : String)
    (hnd : (keys config).Nodup) :
    sort_from_cache (sort_from_cache config content).1 content
      = sort_from_cache config content := by
  have hinv := parseCache_inv config content
  have hperm := sort_from_cache_keys_perm content hnd
  have hnd1 : (keys (sort_from_cache config content).1).Nodup :=
    hperm.nodup_iff.mpr hnd
  have hparse : parseCache (sort_from_cache config content).1 content
      = parseCache config content :=
    parseCache_congr (fun k => hperm.mem_iff) content
  have hsnd : (sort_from_cache (sort_from_cache config content).1 content).2
      = (sort_from_cache config content).2 := by
    rw [sort_from_cache_snd_eq, sort_from_cache_snd_eq, hparse]
  have hfst : (sort_from_cache (sort_from_cache config content).1 content).1
      = (sort_from_cache config content).1 := by
    rw [sort_from_cache_fst_eq content hnd1, hparse,
      sortPairs_congr (sort_from_cache_lookup content hnd)]
    conv_lhs =>
      rw [sort_from_cache_fst_eq content hnd]
    rw [List.filter_append]
    have hnil : (sortPairs config (parseCache config content)).filter
        (fun p => decide (p.1 ∉ sortIds (parseCache config content))) = [] := by
      rw [List.filter_eq_nil_iff]
      intro p hp
      have : p.1 ∈ sortIds (parseCache config content) := by
        rw [← keys_sortPairs hinv]
        exact List.mem_map_of_mem Prod.fst hp
      simpa using this
    rw [hnil, List.nil_append, List.filter_filter]
    rw [sort_from_cache_fst_eq content hnd]
    congr 1
    apply List.filter_congr
    intro p _
    rw [Bool.and_self]
  exact Prod.ext hfst hsnd

/-- Witness for C3 at a concrete config and cache content. -/
theorem c3_witness :
    (keys ([("a", 1), ("b", 2), ("c", 3)] : List (String × Nat))).Nodup
    ∧ sort_from_cache (sort_from_cache ([("a", 1), ("b", 2), ("c", 3)] :
          List (String × Nat)) ("b 5\nc 2")).1 ("b 5\nc 2")
        = sort_from_cache ([("a", 1), ("b", 2), ("c", 3)] :
            List (String × Nat)) ("b 5\nc 2") :=
  ⟨by decide, c3_sort_from_cache_idempotent Nat _ _ (by decide)⟩

/-! ### Claim C2 -/

theorem lookup?_map_incr :
    ∀ (l : List (String × Int)) (id_ : String) (v : Int),
      lookup? l id_ = some v →
      lookup? (l.map (fun p => if p.1 = id_ then (p.1, p.2 + 1) else p)) id_
        = some (v + 1) := by
  intro l
  induction l with
  | nil =>
    intro id_ v h
    simp [lookup?] at h
  | cons p ps ih =>
    intro id_ v h
    simp only [lookup?] at h
    simp only [List.map_cons]
    by_cases hp : p.1 = id_
    · rw [if_pos hp] at h
      obtain rfl := Option.some.inj h
      rw [if_pos hp]
      simp only [lookup?]
      rw [if_pos hp]
    · rw [if_neg hp] at h
      rw [if_neg hp]
      simp only [lookup?]
      rw [if_neg hp]
      exact ih id_ v h

/-- C2: recording a selection initialises a previously-unseen id's count to 0
(not 1) and increments an existing count by exactly 1; hence the first use of
an unseen id stores frequency 0 and the second use of the same id stores 1. -/
theorem c2_record_selection_counts (cached : List (String × Int))
    (id_ : String) :
    (id_ ∉ keys cached →
      lookup? (record_selection cached id_) id_ = some 0
      ∧ lookup? (record_selection (record_selection cached id_) id_) id_
          = some 1)
    ∧ ∀ v, lookup? cached id_ = some v →
        lookup? (record_selection cached id_) id_ = some (v + 1) := by
  have hsome : ∀ (c : List (String × Int)) (v : Int), lookup? c id_ = some v →
      lookup? (record_selection c id_) id_ = some (v + 1) := by
    intro c v h
    unfold record_selection
    rw [if_neg (not_not_intro (lookup?_mem_keys h))]
    exact lookup?_map_incr c id_ v h
  constructor
  · intro habs
    have h0 : lookup? (record_selection cached id_) id_ = some 0 := by
      unfold record_selection
      rw [if_pos habs]
      unfold dictInsert
      rw [if_neg habs, lookup?_append_right habs]
      simp [lookup?]
    refine ⟨h0, ?_⟩
    have h1 := hsome _ 0 h0
    simpa using h1
  · intro v h
    exact hsome cached v h

/-- Witness for C2: with cache `{b: 5}`, the first recording of the unseen id
`a` stores 0 and the second stores 1, while recording `b` stores 6. -/
theorem c2_witness :
    (("a" : String) ∉ keys ([("b", 5)] : List (String × Int))
      ∧ lookup? (record_selection [("b", 5)] ("a")) ("a") = some 0
      ∧ lookup? (record_selection (record_selection [("b", 5)] ("a")) ("a"))
          ("a") = some 1)
    ∧ lookup? (record_selection ([("b", 5)] : List (String × Int)) ("b")) ("b")
        = some 6 :=
  ⟨⟨by decide,
    ((c2_record_selection_counts [("b", 5)] ("a")).1 (by decide)).1,
    ((c2_record_selection_counts [("b", 5)] ("a")).1 (by decide)).2⟩,
   by
    have h := (c2_record_selection_counts [("b", 5)] ("b")).2 5 (by decide)
    simpa using h⟩

/-! ### Claim C5 -/

/-- C5: a cache line that does not strip-and-split into exactly two
whitespace-separated tokens with an integer second token is skipped during
parsing — removing it from the line list leaves the parsed frequency mapping
unchanged, so it contributes nothing (and the parse is a total function, so
no error is raised); in particular `"foo"`, `"foo bar baz"` and
`"foo notanumber"` are malformed and contribute nothing even when their first
token is a config key. -/
theorem c5_malformed_lines_skipped :
    (∀ (α : Type) (config : List (String × α)) (pre suf : List String)
      (line : String), wellFormedLine line = false →
      parseCacheList config (pre ++ line :: suf)
        = parseCacheList config (pre ++ suf))
    ∧ wellFormedLine ("foo") = false
    ∧ wellFormedLine ("foo bar baz") = false
    ∧ wellFormedLine ("foo notanumber") = false
    ∧ parseCache ([("foo", 1), ("bar", 2), ("b", 3)] : List (String × Nat))
        ("foo\nfoo bar baz\nfoo notanumber\nb 5") = [("b", 5)] := by
  refine ⟨?_, by decide, by decide, by decide, by decide⟩
  intro α config pre suf line h
  exact parseCacheList_skip_malformed config pre suf h

/-- Witness for C5: dropping the malformed line `"foo"` from a concrete line
list does not change the parse result. -/
theorem c5_witness :
    wellFormedLine ("foo") = false
    ∧ parseCacheList ([("foo", 1), ("b", 2)] : List (String × Nat))
        ([("b 5")] ++ ("foo") :: [])
      = parseCacheList ([("foo", 1), ("b", 2)] : List (String × Nat))
        ([("b 5")] ++ []) :=
  ⟨by decide,
   c5_malformed_lines_skipped.1 Nat [("foo", 1), ("b", 2)] [("b 5")] []
     ("foo") (by decide)⟩

/-! ### Claim C6 -/

/-- C6: a cache entry whose id is not a key of the config is dropped
entirely: such an id appears neither in the reordered mapping nor in the
retained frequency mapping. -/
theorem c6_unknown_ids_dropped (α : Type) (config : List (String × α))
    (content : String) (id_ : String) (h : id_ ∉ keys config) :
    id_ ∉ keys (sort_from_cache config content).1
    ∧ id_ ∉ keys (sort_from_cache config content).2 := by
  have hsnd : id_ ∉ keys (sort_from_cache config content).2 := by
    rw [sort_from_cache_snd_eq]
    intro hmem
    exact h ((parseCache_inv config content).2 id_ hmem).1
  refine ⟨?_, hsnd⟩
  intro hmem
  apply h
  have hmem2 : id_ ∈ keys (dictOfList
      (dictOfList (sortPairs config (parseCache config content)) ++ config)) :=
    hmem
  have h1 := keys_dictOfList_subset id_ hmem2
  rw [keys_append] at h1
  rcases List.mem_append.mp h1 with h2 | h2
  · have h3 := keys_dictOfList_subset id_ h2
    rcases List.mem_map.mp h3 with ⟨p, hp, rfl⟩
    exact lookup?_mem_keys (sortPairs_mem_lookup p hp)
  · exact h2

/-- Witness for C6: the cache line `"d 4"` with `d` absent from the config
leaves `d` out of both results. -/
theorem c6_witness :
    (("d" : String) ∉ keys ([("a", 1)] : List (String × Nat)))
    ∧ (("d" : String) ∉ keys (sort_from_cache
          ([("a", 1)] : List (String × Nat)) ("d 4")).1
      ∧ ("d" : String) ∉ keys (sort_from_cache
          ([("a", 1)] : List (String × Nat)) ("d 4")).2) :=
  ⟨by decide, c6_unknown_ids_dropped Nat [("a", 1)] ("d 4") ("d") (by decide)⟩

/-! ### Claim C7 -/

/-- C7: when the menu returns an empty selection (output that strips to the
empty string), `main` returns normally — exit status 0 — with no further side
effects: the outcome is `cancelled` and no cache content is written, so no
frequency count is mutated. -/
theorem c7_empty_selection_no_side_effects (which : String → Option String)
    (config : List (String × EntryDef)) (cached : List (String × Int))
    (stdoutStr : String) (h : pyStrip stdoutStr = "") :
    afterMenu which config cached stdoutStr = RunOutcome.cancelled
    ∧ cacheWriteOf (afterMenu which config cached stdoutStr) = none := by
  have hout : afterMenu which config cached stdoutStr = RunOutcome.cancelled := by
    unfold afterMenu
    rw [h]
    simp
  exact ⟨hout, by rw [hout]; rfl⟩

/-- Witness for C7: whitespace-only menu output is cancelled with no cache
write. -/
theorem c7_witness :
    pyStrip ("  ") = ""
    ∧ afterMenu (fun _ => none) [] [] ("  ") = RunOutcome.cancelled
    ∧ cacheWriteOf (afterMenu (fun _ => none) [] [] ("  ")) = none :=
  ⟨by decide,
   (c7_empty_selection_no_side_effects (fun _ => none) [] [] ("  ")
     (by decide)).1,
   (c7_empty_selection_no_side_effects (fun _ => none) [] [] ("  ")
     (by decide)).2⟩

/-! ### Claim C8 -/

/-- C8: the argument vector handed to `os.execv` is `[binary]` when `args`
is unset, `[binary, s]` when `args` is a bare string `s`, and `binary`
followed by the sequence elements in order when `args` is a sequence; in
particular selecting the entry with binary `systemctl` and bare-string args
`"suspend"` execs with argument vector `[systemctl_path, "suspend"]`. -/
theorem c8_argv_construction :
    (∀ b : String, buildArgv b none = [b])
    ∧ (∀ (b s : String), buildArgv b (some (Sum.inl s)) = [b, s])
    ∧ (∀ (b : String) (l : List String),
        buildArgv b (some (Sum.inr l)) = b :: l)
    ∧ afterMenu
        (fun b => if b = ("systemctl") then some ("/usr/bin/systemctl")
          else none)
        [(("suspend"),
          ⟨("Suspend"), ("systemctl"), some (Sum.inl ("suspend")),
            some ("system-suspend-hibernate")⟩)]
        [] ("Suspend")
      = RunOutcome.launched ("suspend 0")
          ["/usr/bin/systemctl", ("suspend")] :=
  ⟨fun _ => rfl, fun _ _ => rfl, fun _ _ => rfl, by decide⟩

/-! ### Claim C10 -/

theorem selectId_eq_filter :
    ∀ (config : List (String × EntryDef)) (out : String),
      (keys config).Nodup →
      selectId config out
        = keys (config.filter (fun p => decide (p.2.description = out))) := by
  intro config out
  induction config with
  | nil => intro _; rfl
  | cons p ps ih =>
    intro hnd
    rw [keys_cons] at hnd
    obtain ⟨hp1, hnd2⟩ := List.nodup_cons.mp hnd
    unfold selectId
    rw [keys_cons]
    have hstep : ((keys ps).filter (fun x =>
        match lookup? (p :: ps) x with
        | some d => decide (d.description = out)
        | none => false))
        = selectId ps out := by
      unfold selectId
      apply List.filter_congr
      intro x hx
      have hxne : p.1 ≠ x := fun he => hp1 (he ▸ hx)
      simp only [lookup?]
      rw [if_neg hxne]
    have hl : lookup? (p :: ps) p.1 = some p.2 := by
      simp [lookup?]
    simp only [List.filter_cons]
    simp only [hl]
    cases hb : decide (p.2.description = out) with
    | false => simp [hb, hstep, ih hnd2]
    | true => simp [hb, hstep, ih hnd2, keys_cons]

/-- C10: the selection lookup is partial: for a non-empty menu output, if at
least one entry's description equals it the program proceeds with the first
matching entry in reordered-mapping order, and if no entry matches, the
candidate list is empty, indexing it fails, and the error is not handled
(modelled as a crash). -/
theorem c10_selection_lookup_partiality (which : String → Option String)
    (config : List (String × EntryDef)) (cached : List (String × Int))
    (stdoutStr : String) (hnd : (keys config).Nodup)
    (hne : pyStrip stdoutStr ≠ "") :
    (config.filter
        (fun p => decide (p.2.description = pyStrip stdoutStr)) = [] →
      afterMenu which config cached stdoutStr = RunOutcome.crashed)
    ∧ ∀ p ps, config.filter
          (fun p => decide (p.2.description = pyStrip stdoutStr)) = p :: ps →
        afterMenu which config cached stdoutStr
          = proceedWith which config cached p.1 := by
  constructor
  · intro hfilter
    unfold afterMenu
    rw [if_neg hne, selectId_eq_filter config (pyStrip stdoutStr) hnd,
      hfilter]
    rfl
  · intro p ps hfilter
    unfold afterMenu
    rw [if_neg hne, selectId_eq_filter config (pyStrip stdoutStr) hnd,
      hfilter]
    rfl

/-- Witness for C10: with a single entry described `X`, output `Y` crashes
and output `X` proceeds with that entry's id. -/
theorem c10_witness :
    afterMenu (fun _ => none) [(("x"), ⟨("X"), ("xbin"), none, none⟩)] []
        ("Y") = RunOutcome.crashed
    ∧ afterMenu (fun _ => none) [(("x"), ⟨("X"), ("xbin"), none, none⟩)] []
        ("X")
      = proceedWith (fun _ => none)
          [(("x"), ⟨("X"), ("xbin"), none, none⟩)] [] ("x") :=
  ⟨(c10_selection_lookup_partiality (fun _ => none)
      [(("x"), ⟨("X"), ("xbin"), none, none⟩)] [] ("Y") (by decide)
      (by decide)).1 (by decide),
   (c10_selection_lookup_partiality (fun _ => none)
      [(("x"), ⟨("X"), ("xbin"), none, none⟩)] [] ("X") (by decide)
      (by decide)).2 (("x"), ⟨("X"), ("xbin"), none, none⟩) [] (by decide)⟩

/-! ### Claim C9 -/

/-- C9: tie-break of the reordering: two retained cache entries with equal
frequencies appear in the reordered mapping in the reverse of their order in
the retained frequency mapping — the stable ascending sort is reversed
wholesale — not in the config's original order; the reordering is a pure
function of the config and cache content, hence deterministic. The concrete
conjunct shows config order `[a, b]` with equal frequencies displayed as
`[b, a]`. -/
theorem c9_equal_frequency_tiebreak :
    (∀ (α : Type) (config : List (String × α)) (content : String)
      (x y : String × Int), (keys config).Nodup →
      List.Sublist [x, y] (sort_from_cache config content).2 →
      x.2 = y.2 →
      List.Sublist [y.1, x.1] (keys (sort_from_cache config content).1))
    ∧ keys (sort_from_cache ([("a", 1), ("b", 2)] : List (String × Nat))
        ("a 3\nb 3")).1 = ["b", "a"] := by
  constructor
  · intro α config content x y hnd hsub hxy
    have hinv := parseCache_inv config content
    rw [sort_from_cache_snd_eq] at hsub
    have h1 : List.Sublist [x, y]
        ((parseCache config content).insertionSort freqLe) :=
      List.pair_sublist_insertionSort (le_of_eq hxy) hsub
    have h2 : List.Sublist [y, x]
        ((parseCache config content).insertionSort freqLe).reverse := by
      have hr := h1.reverse
      simpa using hr
    have h3 : List.Sublist [y.1, x.1]
        (keys ((parseCache config content).insertionSort freqLe).reverse) := by
      have hm := h2.map Prod.fst
      simpa [keys] using hm
    rw [sort_from_cache_fst_eq content hnd, keys_append, keys_sortPairs hinv]
    refine List.Sublist.trans ?_ (List.sublist_append_left _ _)
    rw [sortIds_eq hinv]
    exact h3
  · decide

/-- Witness for C9: the two equal-frequency entries `a 3`, `b 3` (cache
order `[a, b]`) are displayed in the order `[b, a]`. -/
theorem c9_witness :
    (keys ([("a", 1), ("b", 2)] : List (String × Nat))).Nodup
    ∧ List.Sublist [(("a" : String), (3 : Int)), (("b" : String), (3 : Int))]
        (sort_from_cache ([("a", 1), ("b", 2)] : List (String × Nat))
          ("a 3\nb 3")).2
    ∧ List.Sublist [("b" : String), ("a" : String)]
        (keys (sort_from_cache ([("a", 1), ("b", 2)] : List (String × Nat))
          ("a 3\nb 3")).1) := by
  have hsub : List.Sublist
      [(("a" : String), (3 : Int)), (("b" : String), (3 : Int))]
      (sort_from_cache ([("a", 1), ("b", 2)] : List (String × Nat))
        ("a 3\nb 3")).2 := by
    have he : (sort_from_cache ([("a", 1), ("b", 2)] : List (String × Nat))
        ("a 3\nb 3")).2 = [(("a" : String), (3 : Int)), ("b", 3)] := by decide
    rw [he]
  exact ⟨by decide, hsub,
    c9_equal_frequency_tiebreak.1 Nat [("a", 1), ("b", 2)] ("a 3\nb 3")
      ("a", 3) ("b", 3) (by decide) hsub (by decide)⟩

/-! ### Claim C4: digit, joining and splitting round-trips -/

theorem digitVal?_digitChar {d : Nat} (h : d < 10) :
    digitVal? (digitChar d) = some d := by
  interval_cases d <;> decide

theorem digitChar_not_ws {d : Nat} (h : d < 10) :
    (digitChar d).isWhitespace = false := by
  interval_cases d <;> decide

theorem digitChar_ne_minus {d : Nat} (h : d < 10) : digitChar d ≠ '-' := by
  interval_cases d <;> decide

theorem digitChar_ne_plus {d : Nat} (h : d < 10) : digitChar d ≠ '+' := by
  interval_cases d <;> decide

theorem ne_nl_of_not_ws {c : Char} (h : c.isWhitespace = false) : c ≠ '\n' := by
  intro he
  rw [he] at h
  exact absurd h (by decide)

theorem natDigits_digits :
    ∀ (fuel n : Nat), ∀ c ∈ natDigits fuel n, ∃ d, d < 10 ∧ c = digitChar d := by
  intro fuel
  induction fuel with
  | zero =>
    intro n c hc
    simp [natDigits] at hc
  | succ fuel ih =>
    intro n c hc
    simp only [natDigits] at hc
    by_cases hn : n < 10
    · rw [if_pos hn] at hc
      simp only [List.mem_singleton] at hc
      exact ⟨n, hn, hc⟩
    · rw [if_neg hn] at hc
      rcases List.mem_append.mp hc with h1 | h1
      · exact ih (n / 10) c h1
      · simp only [List.mem_singleton] at h1
        exact ⟨n % 10, Nat.mod_lt _ (by omega), h1⟩

theorem natDigits_ne_nil (fuel n : Nat) : natDigits (fuel + 1) n ≠ [] := by
  simp only [natDigits]
  by_cases hn : n < 10
  · rw [if_pos hn]
    simp
  · rw [if_neg hn]
    simp

theorem parseDigitsAux_append (xs ys : List Char) :
    ∀ a : Nat, parseDigitsAux (xs ++ ys) a
      = match parseDigitsAux xs a with
        | some m => parseDigitsAux ys m
        | none => none := by
  induction xs with
  | nil => intro a; rfl
  | cons c cs ih =>
    intro a
    rw [List.cons_append]
    simp only [parseDigitsAux]
    cases hd : digitVal? c with
    | some d => exact ih (a * 10 + d)
    | none => rfl

theorem parseDigitsAux_natDigits :
    ∀ (fuel n a : Nat), n < 10 ^ fuel →
      parseDigitsAux (natDigits fuel n) a
        = some (a * 10 ^ (natDigits fuel n).length + n) := by
  intro fuel
  induction fuel with
  | zero =>
    intro n a h
    have hn : n = 0 := by simpa using h
    subst hn
    simp [natDigits, parseDigitsAux]
  | succ fuel ih =>
    intro n a h
    by_cases hn : n < 10
    · simp only [natDigits, if_pos hn]
      simp only [parseDigitsAux, digitVal?_digitChar hn]
      simp
    · simp only [natDigits, if_neg hn]
      rw [parseDigitsAux_append]
      have hdiv : n / 10 < 10 ^ fuel := by
        rw [Nat.div_lt_iff_lt_mul (by omega)]
        calc n < 10 ^ (fuel + 1) := h
        _ = 10 ^ fuel * 10 := by rw [pow_succ]
      rw [ih (n / 10) a hdiv]
      simp only [parseDigitsAux, digitVal?_digitChar (Nat.mod_lt n (by omega))]
      rw [List.length_append]
      have hmod : n / 10 * 10 + n % 10 = n := by omega
      have harith : (a * 10 ^ (natDigits fuel (n / 10)).length + n / 10) * 10
            + n % 10
          = a * 10 ^ ((natDigits fuel (n / 10)).length + [digitChar (n % 10)].length)
            + n := by
        calc (a * 10 ^ (natDigits fuel (n / 10)).length + n / 10) * 10 + n % 10
            = a * (10 ^ (natDigits fuel (n / 10)).length * 10)
              + (n / 10 * 10 + n % 10) := by ring
          _ = a * 10 ^ ((natDigits fuel (n / 10)).length + 1) + n := by
              rw [hmod, pow_succ]
          _ = a * 10 ^ ((natDigits fuel (n / 10)).length
                + [digitChar (n % 10)].length) + n := by rfl
      rw [harith]

theorem parseNat?_eq_of_ne_nil {cs : List Char} (h : cs ≠ []) :
    parseNat? cs = parseDigitsAux cs 0 := by
  cases cs with
  | nil => exact absurd rfl h
  | cons c cs => rfl

theorem n_lt_ten_pow (n : Nat) : n < 10 ^ (n + 1) := by
  calc n < 10 ^ n := Nat.lt_pow_self (by omega) n
  _ ≤ 10 ^ (n + 1) := Nat.pow_le_pow_right (by omega) (by omega)

theorem parseNat?_natDigits (n : Nat) :
    parseNat? (natDigits (n + 1) n) = some n := by
  rw [parseNat?_eq_of_ne_nil (natDigits_ne_nil n n),
    parseDigitsAux_natDigits (n + 1) n 0 (n_lt_ten_pow n)]
  simp

theorem isToken_natToStr (n : Nat) : IsToken (natToStr n) := by
  refine ⟨natDigits_ne_nil n n, ?_⟩
  intro c hc
  obtain ⟨d, hd, rfl⟩ := natDigits_digits (n + 1) n c hc
  exact digitChar_not_ws hd

theorem isToken_intToStr (i : Int) : IsToken (intToStr i) := by
  cases i with
  | ofNat n => exact isToken_natToStr n
  | negSucc n =>
    refine ⟨List.cons_ne_nil _ _, ?_⟩
    intro c hc
    rcases List.mem_cons.mp hc with rfl | hc2
    · decide
    · obtain ⟨d, hd, rfl⟩ := natDigits_digits (n + 2) (n + 1) c hc2
      exact digitChar_not_ws hd

theorem int?_intToStr (i : Int) : int? (intToStr i) = some i := by
  cases i with
  | ofNat n =>
    show int? (natToStr n) = some (Int.ofNat n)
    unfold int? natToStr
    cases hd : natDigits (n + 1) n with
    | nil => exact absurd hd (natDigits_ne_nil n n)
    | cons c cs =>
      dsimp only
      obtain ⟨d, hdlt, rfl⟩ := natDigits_digits (n + 1) n c
        (by rw [hd]; exact List.mem_cons_self _ _)
      rw [if_neg (digitChar_ne_minus hdlt), if_neg (digitChar_ne_plus hdlt),
        ← hd, parseNat?_natDigits n]
      rfl
  | negSucc n =>
    show int? ⟨'-' :: natDigits (n + 2) (n + 1)⟩ = some (Int.negSucc n)
    unfold int?
    dsimp only
    rw [if_pos rfl, parseNat?_natDigits (n + 1)]
    rfl

theorem dropWhile_cons_of_neg {p : Char → Bool} {c : Char} {cs : List Char}
    (h : p c = false) : (c :: cs).dropWhile p = c :: cs := by
  rw [List.dropWhile_cons, h]
  simp

theorem pyStripList_of_ends {c0 c1 : Char} (mid : List Char)
    (h0 : c0.isWhitespace = false) (h1 : c1.isWhitespace = false) :
    pyStripList (c0 :: (mid ++ [c1])) = c0 :: (mid ++ [c1]) := by
  unfold pyStripList
  rw [dropWhile_cons_of_neg h0]
  have hrev : (c0 :: (mid ++ [c1])).reverse = c1 :: (mid.reverse ++ [c0]) := by
    simp
  rw [hrev, dropWhile_cons_of_neg h1, ← hrev, List.reverse_reverse]

theorem wordsAux_append_non_ws :
    ∀ (xs rest cur : List Char), (∀ c ∈ xs, c.isWhitespace = false) →
      wordsAux (xs ++ rest) cur = wordsAux rest (xs.reverse ++ cur) := by
  intro xs
  induction xs with
  | nil => intro rest cur _; simp
  | cons c cs ih =>
    intro rest cur h
    have hc := h c (List.mem_cons_self _ _)
    have harr : (c :: cs).reverse ++ cur = cs.reverse ++ (c :: cur) := by simp
    rw [harr, List.cons_append]
    simp only [wordsAux]
    rw [if_neg (by simp [hc])]
    exact ih rest (c :: cur) (fun d hd => h d (List.mem_cons_of_mem _ hd))

theorem splitNlAux_append_no_nl :
    ∀ (xs rest cur : List Char), (∀ c ∈ xs, c ≠ '\n') →
      splitNlAux (xs ++ rest) cur = splitNlAux rest (xs.reverse ++ cur) := by
  intro xs
  induction xs with
  | nil => intro rest cur _; simp
  | cons c cs ih =>
    intro rest cur h
    have hc := h c (List.mem_cons_self _ _)
    have harr : (c :: cs).reverse ++ cur = cs.reverse ++ (c :: cur) := by simp
    rw [harr, List.cons_append]
    simp only [splitNlAux]
    rw [if_neg hc]
    exact ih rest (c :: cur) (fun d hd => h d (List.mem_cons_of_mem _ hd))

theorem splitLines_single {s : String} (h : ∀ c ∈ s.data, c ≠ '\n') :
    splitLines s = [s] := by
  unfold splitLines
  have h2 := splitNlAux_append_no_nl s.data [] [] h
  rw [List.append_nil] at h2
  rw [h2]
  simp only [splitNlAux]
  rw [List.append_nil, List.reverse_reverse]

theorem splitLines_pyJoin :
    ∀ (lines : List String), lines ≠ [] →
      (∀ l ∈ lines, ∀ c ∈ l.data, c ≠ '\n') →
      splitLines (pyJoin ("\n") lines) = lines := by
  intro lines
  induction lines with
  | nil => intro h _; exact absurd rfl h
  | cons x xs ih =>
    intro _ h
    cases xs with
    | nil => exact splitLines_single (h x (List.mem_cons_self _ _))
    | cons y ys =>
      have hx := h x (List.mem_cons_self _ _)
      show splitLines (x ++ ("\n") ++ pyJoin ("\n") (y :: ys)) = x :: y :: ys
      unfold splitLines
      rw [String.data_append, String.data_append]
      have hnl : ("\n" : String).data = ['\n'] := rfl
      rw [hnl, List.append_assoc]
      rw [splitNlAux_append_no_nl x.data _ [] hx]
      have hstep : (['\n'] ++ (pyJoin ("\n") (y :: ys)).data)
          = '\n' :: (pyJoin ("\n") (y :: ys)).data := by simp
      rw [hstep]
      simp only [splitNlAux]
      rw [if_pos trivial, List.append_nil, List.reverse_reverse]
      have hih := ih (by simp) (fun l hl => h l (List.mem_cons_of_mem _ hl))
      unfold splitLines at hih
      rw [hih]

theorem pySplit_record (id_ num : String) (hid : IsToken id_)
    (hnum : IsToken num) :
    pySplit (pyStrip (id_ ++ " " ++ num)) = [id_, num] := by
  have hdata : (id_ ++ " " ++ num).data = id_.data ++ ' ' :: num.data := by
    rw [String.data_append, String.data_append]
    simp
  obtain ⟨hne_id, hws_id⟩ := hid
  obtain ⟨hne_num, hws_num⟩ := hnum
  cases hi : id_.data with
  | nil => exact absurd hi hne_id
  | cons c0 cs0 =>
    cases hn : num.data.reverse with
    | nil =>
      refine absurd ?_ hne_num
      have h2 := congrArg List.reverse hn
      simpa using h2
    | cons c1 cs1 =>
      have hnum_eq : num.data = cs1.reverse ++ [c1] := by
        have h2 := congrArg List.reverse hn
        simpa using h2
      have hline : (id_ ++ " " ++ num).data
          = c0 :: ((cs0 ++ ' ' :: cs1.reverse) ++ [c1]) := by
        rw [hdata, hi, hnum_eq]
        simp
      have hstrip : pyStrip (id_ ++ " " ++ num) = id_ ++ " " ++ num := by
        unfold pyStrip
        rw [hline, pyStripList_of_ends _
          (hws_id c0 (by rw [hi]; exact List.mem_cons_self _ _))
          (hws_num c1 (by rw [hnum_eq]; simp)), ← hline]
      rw [hstrip]
      unfold pySplit
      rw [hdata]
      rw [wordsAux_append_non_ws id_.data (' ' :: num.data) [] hws_id]
      simp only [wordsAux]
      rw [if_pos (by decide)]
      rw [if_neg (by simpa using hne_id)]
      have hnum_words : wordsAux num.data [] = [num] := by
        have h3 := wordsAux_append_non_ws num.data [] [] hws_num
        rw [List.append_nil] at h3
        rw [h3]
        simp only [wordsAux]
        rw [if_neg (by simpa using hne_num), List.append_nil,
          List.reverse_reverse]
      rw [hnum_words, List.append_nil, List.reverse_reverse]

theorem cacheStep_of_record {config : List (String × α)}
    (acc : List (String × Int)) {p : String × Int}
    (hid : p.1 ∈ keys config) (htok : IsToken p.1) :
    cacheStep config acc (p.1 ++ " " ++ intToStr p.2)
      = dictInsert acc p.1 p.2 := by
  unfold cacheStep
  rw [pySplit_record p.1 (intToStr p.2) htok (isToken_intToStr p.2)]
  dsimp only
  rw [if_pos hid, int?_intToStr]

theorem parseCacheList_serialize {α : Type} (config : List (String × α))
    (freqs : List (String × Int))
    (hids : ∀ p ∈ freqs, p.1 ∈ keys config ∧ IsToken p.1) :
    parseCacheList config
        (freqs.map (fun p => p.1 ++ " " ++ intToStr p.2))
      = dictOfList freqs := by
  unfold parseCacheList dictOfList
  suffices h : ∀ (l acc : List (String × Int)),
      (∀ p ∈ l, p.1 ∈ keys config ∧ IsToken p.1) →
      (l.map (fun p => p.1 ++ " " ++ intToStr p.2)).foldl
          (cacheStep config) acc
        = l.foldl (fun d p => dictInsert d p.1 p.2) acc from h freqs [] hids
  intro l
  induction l with
  | nil => intro acc _; rfl
  | cons p ps ih =>
    intro acc h
    rw [List.map_cons, List.foldl_cons, List.foldl_cons,
      cacheStep_of_record acc (h p (List.mem_cons_self _ _)).1
        (h p (List.mem_cons_self _ _)).2]
    exact ih _ (fun q hq => h q (List.mem_cons_of_mem _ hq))

/-- C4 (amended): for every frequency mapping with distinct ids that are
nonempty whitespace-free tokens, all present in the config mapping, and with
non-negative integer frequencies, serialising it as newline-joined
`"<id> <count>"` records and re-parsing the text yields the same frequency
mapping. -/
theorem c4_cache_round_trip (α : Type) (config : List (String × α))
    (freqs : List (String × Int)) (hnd : (keys freqs).Nodup)
    (hids : ∀ p ∈ freqs, p.1 ∈ keys config ∧ IsToken p.1)
    (hnonneg : ∀ p ∈ freqs, 0 ≤ p.2) :
    parseCache config (serializeCache freqs) = freqs := by
  cases freqs with
  | nil => rfl
  | cons q qs =>
    unfold parseCache serializeCache
    rw [splitLines_pyJoin ((q :: qs).map (fun p => p.1 ++ " " ++ intToStr p.2))
      (by simp)
      (by
        intro l hl c hc
        rcases List.mem_map.mp hl with ⟨p, hp, rfl⟩
        have hdata : (p.1 ++ " " ++ intToStr p.2).data
            = p.1.data ++ ' ' :: (intToStr p.2).data := by
          rw [String.data_append, String.data_append]
          simp
        rw [hdata] at hc
        rcases List.mem_append.mp hc with h1 | h1
        · exact ne_nl_of_not_ws ((hids p hp).2.2 c h1)
        · rcases List.mem_cons.mp h1 with rfl | h2
          · decide
          · exact ne_nl_of_not_ws ((isToken_intToStr p.2).2 c h2))]
    rw [parseCacheList_serialize config (q :: qs) hids,
      dictOfList_eq_self hnd]

/-- Counterexample to C4 as stated: the id `"a b"` containing a space is a
key of the config and carries a non-negative frequency, yet serialising and
re-parsing loses it (its line splits into three tokens and is skipped). -/
theorem c4_counterexample :
    (∀ p ∈ ([(("a b"), (0 : Int))] : List (String × Int)),
        p.1 ∈ keys ([(("a b"), 0)] : List (String × Nat)) ∧ 0 ≤ p.2)
    ∧ parseCache ([(("a b"), 0)] : List (String × Nat))
        (serializeCache [(("a b"), (0 : Int))])
      ≠ [(("a b"), (0 : Int))] := by
  refine ⟨by decide, by decide⟩

/-- Witness for C4: a concrete two-entry frequency mapping with token ids
round-trips through the cache text. -/
theorem c4_witness :
    ((keys ([(("ab"), (5 : Int)), (("cd"), 0)] : List (String × Int))).Nodup
      ∧ (∀ p ∈ ([(("ab"), (5 : Int)), (("cd"), 0)] : List (String × Int)),
          p.1 ∈ keys ([(("ab"), 1), (("cd"), 2)] : List (String × Nat))
            ∧ IsToken p.1)
      ∧ (∀ p ∈ ([(("ab"), (5 : Int)), (("cd"), 0)] : List (String × Int)),
          0 ≤ p.2))
    ∧ parseCache ([(("ab"), 1), (("cd"), 2)] : List (String × Nat))
        (serializeCache [(("ab"), (5 : Int)), (("cd"), 0)])
      = [(("ab"), (5 : Int)), (("cd"), 0)] :=
  ⟨⟨by decide, by decide, by decide⟩,
   c4_cache_round_trip Nat [(("ab"), 1), (("cd"), 2)]
     [(("ab"), (5 : Int)), (("cd"), 0)] (by decide) (by decide) (by decide)⟩

end Mounch
